import Mathlib

/-!
Verification development for the relative/constraint layout engine of the
`render` repository (`src/render/objects/relative/utils.py` and
`src/render/objects/relative/container.py`).

The Python code is shallowly embedded: Python `float` arithmetic is modelled
by `ℚ` (all layout computations in scope are exact small-denominator
arithmetic), a Python `dict[str, float]` of symbol coefficients is modelled by
a `Finset String` of present keys together with a coefficient function, and
Python exceptions are modelled by `Except Err`.
-/

/-- Error taxonomy of the layout engine.  Python raises `ValueError`
(respectively `KeyError`) with distinguishing messages; here each distinct
failure is a distinct constructor. -/
inductive Err where
  | cyclicDependency
  | unresolvedPosition (node : Nat)
  | minEmptySequence
  | couldNotInferSize
  | keyError
  | invalidRelativeType
  | invalidConstraint
  | missingVariable
  | duplicateChild
deriving DecidableEq, Repr

/-- Embedding of `LinearPolynomial` (utils.py).  `const` is `self.const`;
the Python dict `self.symbols` is modelled by the key set `symbols` plus the
coefficient function `coefFn` (whose values are only meaningful on keys in
`symbols`).  A key may be present with an explicitly stored zero coefficient,
exactly as in a Python dict. -/
structure LinearPolynomial where
  const : ℚ
  coefFn : String → ℚ
  symbols : Finset String

namespace LinearPolynomial

/-- `self.symbols.get(key, 0)`: the stored coefficient for a present key,
`0` for an absent one. -/
def coef (p : LinearPolynomial) (k : String) : ℚ :=
  if k ∈ p.symbols then p.coefFn k else 0

/-- `LinearPolynomial.of_const` (utils.py line 18). -/
def ofConst (c : ℚ) : LinearPolynomial := ⟨c, fun _ => 0, ∅⟩

/-- `LinearPolynomial(k=c)`: a polynomial with the single entry `k : c`. -/
def single (k : String) (c : ℚ) : LinearPolynomial :=
  ⟨0, fun t => if t = k then c else 0, {k}⟩

/-- `__add__` with a `LinearPolynomial` argument (utils.py lines 22-30):
coefficients for shared keys add, and entries whose resulting value is zero
are dropped from the dict. -/
def add (p q : LinearPolynomial) : LinearPolynomial :=
  ⟨p.const + q.const, fun k => p.coef k + q.coef k,
    (p.symbols ∪ q.symbols).filter (fun k => p.coef k + q.coef k ≠ 0)⟩

/-- `__add__` with an `int`/`float` argument (utils.py lines 31-32): only the
constant changes, the symbol dict is reused unchanged. -/
def addConst (p : LinearPolynomial) (c : ℚ) : LinearPolynomial :=
  ⟨p.const + c, p.coefFn, p.symbols⟩

/-- `__neg__` (utils.py lines 42-45): negate the constant and every stored
coefficient; zero entries are kept. -/
def neg (p : LinearPolynomial) : LinearPolynomial :=
  ⟨-p.const, fun k => -(p.coefFn k), p.symbols⟩

/-- `__sub__` (utils.py lines 39-40): `self + (-other)`. -/
def sub (p q : LinearPolynomial) : LinearPolynomial := p.add q.neg

/-- `__mul__` by a scalar (utils.py lines 47-54): every stored coefficient is
multiplied; no zero entry is dropped. -/
def mulConst (p : LinearPolynomial) (c : ℚ) : LinearPolynomial :=
  ⟨p.const * c, fun k => p.coefFn k * c, p.symbols⟩

/-- `__truediv__` by a scalar (utils.py lines 56-63). -/
def divConst (p : LinearPolynomial) (c : ℚ) : LinearPolynomial :=
  ⟨p.const / c, fun k => p.coefFn k / c, p.symbols⟩

/-- `is_const` (utils.py lines 124-126): the symbol dict is empty. -/
def isConst (p : LinearPolynomial) : Prop := p.symbols = ∅

instance (p : LinearPolynomial) : Decidable p.isConst := by
  unfold isConst; infer_instance

/-- `__eq__` on two polynomials (utils.py lines 84-86): structural equality
of the constant and of the symbol dict (same key set, same stored values). -/
def pythonEq (p q : LinearPolynomial) : Prop :=
  p.const = q.const ∧ p.symbols = q.symbols ∧ ∀ k ∈ p.symbols, p.coef k = q.coef k

instance (p q : LinearPolynomial) : Decidable (p.pythonEq q) := by
  unfold pythonEq; infer_instance

/-- `__lt__` (utils.py lines 74-82), the documented best-effort ordering:
`p < q` iff `(p - q).const < 0` and every stored coefficient of `p - q` is
`≤ 0`. -/
def ltPy (p q : LinearPolynomial) : Prop :=
  (p.sub q).const < 0 ∧ ∀ k ∈ (p.sub q).symbols, (p.sub q).coef k ≤ 0

instance (p q : LinearPolynomial) : Decidable (p.ltPy q) := by
  unfold ltPy; infer_instance

/-- `contains_symbol` with a polynomial argument (utils.py lines 116-122):
all keys of the argument are present in `self`. -/
def containsSymbol (p q : LinearPolynomial) : Prop := q.symbols ⊆ p.symbols

instance (p q : LinearPolynomial) : Decidable (p.containsSymbol q) := by
  unfold containsSymbol; infer_instance

/-- Denotation of a polynomial under a total variable binding: the value
`eval` computes when every referenced variable is bound. -/
def evalT (p : LinearPolynomial) (env : String → ℚ) : ℚ :=
  p.const + ∑ k ∈ p.symbols, p.coef k * env k

/-- Iterative kernel of `eval` (utils.py lines 112-114): accumulate
`coef * values[key]` over the dict entries, failing if a key is unbound
(Python raises `KeyError`; the spec calls this `MissingVariable`). -/
def evalGo (p : LinearPolynomial) (b : String → Option ℚ) : List String → Option ℚ
  | [] => some 0
  | k :: ks =>
    match b k, evalGo p b ks with
    | some v, some s => some (p.coef k * v + s)
    | _, _ => none

/-- The dict entries in iteration order (any fixed order is a faithful model
of Python dict iteration for the properties in scope). -/
def keyList (p : LinearPolynomial) : List String := p.symbols.sort (· ≤ ·)

/-- `eval` (utils.py lines 112-114): `const + Σ coef * values[key]`, or a
missing-variable failure (`none`) when some key is unbound. -/
def eval (p : LinearPolynomial) (b : String → Option ℚ) : Option ℚ :=
  (evalGo p b p.keyList).map (fun s => p.const + s)

lemma coef_eq_zero_of_not_mem {p : LinearPolynomial} {k : String}
    (h : k ∉ p.symbols) : p.coef k = 0 := by
  simp [coef, h]

lemma coef_add (p q : LinearPolynomial) (k : String) :
    (p.add q).coef k = p.coef k + q.coef k := by
  by_cases h : k ∈ (p.add q).symbols
  · show (if k ∈ (p.add q).symbols then (p.add q).coefFn k else 0) = _
    rw [if_pos h]
    rfl
  · have h0 : p.coef k + q.coef k = 0 := by
      by_cases hk : k ∈ p.symbols ∪ q.symbols
      · by_contra hne
        exact h (Finset.mem_filter.mpr ⟨hk, hne⟩)
      · rw [Finset.mem_union] at hk
        push_neg at hk
        rw [coef_eq_zero_of_not_mem hk.1, coef_eq_zero_of_not_mem hk.2, add_zero]
    rw [coef_eq_zero_of_not_mem h, h0]

lemma const_add (p q : LinearPolynomial) : (p.add q).const = p.const + q.const := rfl

lemma coef_neg (p : LinearPolynomial) (k : String) : p.neg.coef k = -(p.coef k) := by
  by_cases h : k ∈ p.symbols <;> simp [coef, neg, h]

lemma const_neg (p : LinearPolynomial) : p.neg.const = -p.const := rfl

lemma coef_sub (p q : LinearPolynomial) (k : String) :
    (p.sub q).coef k = p.coef k - q.coef k := by
  rw [sub, coef_add, coef_neg]; ring

lemma const_sub (p q : LinearPolynomial) : (p.sub q).const = p.const - q.const := by
  rw [sub, const_add, const_neg]; ring

lemma coef_addConst (p : LinearPolynomial) (c : ℚ) (k : String) :
    (p.addConst c).coef k = p.coef k := rfl

lemma coef_mulConst (p : LinearPolynomial) (c : ℚ) (k : String) :
    (p.mulConst c).coef k = p.coef k * c := by
  by_cases h : k ∈ p.symbols <;> simp [coef, mulConst, h]

lemma symbols_mulConst (p : LinearPolynomial) (c : ℚ) :
    (p.mulConst c).symbols = p.symbols := rfl

lemma sum_coef_ext (p : LinearPolynomial) {S : Finset String}
    (hsub : p.symbols ⊆ S) (env : String → ℚ) :
    ∑ k ∈ p.symbols, p.coef k * env k = ∑ k ∈ S, p.coef k * env k :=
  Finset.sum_subset hsub
    (fun k _ hk => by rw [coef_eq_zero_of_not_mem hk, zero_mul])

lemma evalT_congr {p q : LinearPolynomial} (hc : p.const = q.const)
    (hf : ∀ k, p.coef k = q.coef k) (env : String → ℚ) :
    p.evalT env = q.evalT env := by
  unfold evalT
  rw [hc]
  congr 1
  rw [sum_coef_ext p (Finset.subset_union_left
      : p.symbols ⊆ p.symbols ∪ q.symbols) env,
    sum_coef_ext q (Finset.subset_union_right
      : q.symbols ⊆ p.symbols ∪ q.symbols) env]
  exact Finset.sum_congr rfl (fun k _ => by rw [hf k])

lemma evalT_add (p q : LinearPolynomial) (env : String → ℚ) :
    (p.add q).evalT env = p.evalT env + q.evalT env := by
  unfold evalT
  have hfil : ∑ k ∈ (p.add q).symbols, (p.add q).coef k * env k
      = ∑ k ∈ p.symbols ∪ q.symbols, (p.add q).coef k * env k := by
    refine Finset.sum_subset (Finset.filter_subset _ _) (fun k hk hnk => ?_)
    have : p.coef k + q.coef k = 0 := by
      by_contra hne
      exact hnk (Finset.mem_filter.mpr ⟨hk, hne⟩)
    rw [coef_add, this, zero_mul]
  rw [hfil, const_add]
  have : ∑ k ∈ p.symbols ∪ q.symbols, (p.add q).coef k * env k
      = (∑ k ∈ p.symbols ∪ q.symbols, p.coef k * env k)
        + ∑ k ∈ p.symbols ∪ q.symbols, q.coef k * env k := by
    rw [← Finset.sum_add_distrib]
    exact Finset.sum_congr rfl (fun k _ => by rw [coef_add]; ring)
  rw [this,
    ← sum_coef_ext p (Finset.subset_union_left
      : p.symbols ⊆ p.symbols ∪ q.symbols) env,
    ← sum_coef_ext q (Finset.subset_union_right
      : q.symbols ⊆ p.symbols ∪ q.symbols) env]
  ring

lemma evalT_addConst (p : LinearPolynomial) (c : ℚ) (env : String → ℚ) :
    (p.addConst c).evalT env = p.evalT env + c := by
  unfold evalT addConst
  have : ∀ k, (p.addConst c).coef k = p.coef k := fun k => rfl
  simp only [evalT]
  have hs : ∑ k ∈ (p.addConst c).symbols, (p.addConst c).coef k * env k
      = ∑ k ∈ p.symbols, p.coef k * env k :=
    Finset.sum_congr rfl (fun k _ => by rw [this])
  simp only [addConst] at hs ⊢
  rw [hs]; ring

lemma evalT_neg (p : LinearPolynomial) (env : String → ℚ) :
    p.neg.evalT env = -(p.evalT env) := by
  unfold evalT
  have hs : ∑ k ∈ p.neg.symbols, p.neg.coef k * env k
      = ∑ k ∈ p.symbols, -(p.coef k * env k) :=
    Finset.sum_congr rfl (fun k _ => by rw [coef_neg]; ring)
  rw [hs, const_neg, Finset.sum_neg_distrib]
  ring

lemma evalT_sub (p q : LinearPolynomial) (env : String → ℚ) :
    (p.sub q).evalT env = p.evalT env - q.evalT env := by
  rw [sub, evalT_add, evalT_neg]; ring

lemma evalT_mulConst (p : LinearPolynomial) (c : ℚ) (env : String → ℚ) :
    (p.mulConst c).evalT env = p.evalT env * c := by
  unfold evalT
  have hs : ∑ k ∈ (p.mulConst c).symbols, (p.mulConst c).coef k * env k
      = ∑ k ∈ p.symbols, (p.coef k * env k) * c := by
    rw [symbols_mulConst]
    exact Finset.sum_congr rfl (fun k _ => by rw [coef_mulConst]; ring)
  rw [hs, ← Finset.sum_mul]
  simp [mulConst]
  ring

lemma evalT_ofConst (c : ℚ) (env : String → ℚ) : (ofConst c).evalT env = c := by
  simp [evalT, ofConst]

end LinearPolynomial

/-- Embedding of `Point` (utils.py lines 203-220): a pair of symbolic
coordinates.  `Point.of` merely wraps numbers as constant polynomials, so the
embedding takes `LinearPolynomial` components directly. -/
structure Point where
  x : LinearPolynomial
  y : LinearPolynomial

/-- Embedding of `Box` (utils.py lines 223-333): two symbolic points. -/
structure Box where
  p1 : Point
  p2 : Point

namespace Box

open LinearPolynomial

/-- `Box.of_size` (utils.py lines 229-237): `Box(Point(x,y), Point(x+w,y+h))`. -/
def of_size (x y w h : LinearPolynomial) : Box :=
  ⟨⟨x, y⟩, ⟨x.add w, y.add h⟩⟩

/-- `Box.w` (utils.py lines 239-241). -/
def w (b : Box) : LinearPolynomial := b.p2.x.sub b.p1.x

/-- `Box.h` (utils.py lines 243-245). -/
def h (b : Box) : LinearPolynomial := b.p2.y.sub b.p1.y

/-- `Box.x1` (utils.py lines 247-249). -/
def x1 (b : Box) : LinearPolynomial := b.p1.x

/-- `Box.x2` (utils.py lines 251-253). -/
def x2 (b : Box) : LinearPolynomial := b.p2.x

/-- `Box.y1` (utils.py lines 255-257). -/
def y1 (b : Box) : LinearPolynomial := b.p1.y

/-- `Box.y2` (utils.py lines 259-261). -/
def y2 (b : Box) : LinearPolynomial := b.p2.y

/-- `Box.above` (utils.py lines 263-264). -/
def above (b o : Box) : Box := of_size b.p1.x (o.p1.y.sub b.h) b.w b.h

/-- `Box.below` (utils.py lines 266-267). -/
def below (b o : Box) : Box := of_size b.p1.x o.p2.y b.w b.h

/-- `Box.left` (utils.py lines 269-270). -/
def left (b o : Box) : Box := of_size (o.p1.x.sub b.w) b.p1.y b.w b.h

/-- `Box.right` (utils.py lines 272-273). -/
def right (b o : Box) : Box := of_size o.p2.x b.p1.y b.w b.h

/-- `Box.align_top` (utils.py lines 275-276). -/
def align_top (b o : Box) : Box := of_size b.p1.x o.p1.y b.w b.h

/-- `Box.align_bottom` (utils.py lines 278-279). -/
def align_bottom (b o : Box) : Box := of_size b.p1.x (o.p2.y.sub b.h) b.w b.h

/-- `Box.align_left` (utils.py lines 281-282). -/
def align_left (b o : Box) : Box := of_size o.p1.x b.p1.y b.w b.h

/-- `Box.align_right` (utils.py lines 284-285). -/
def align_right (b o : Box) : Box := of_size (o.p2.x.sub b.w) b.p1.y b.w b.h

/-- `Box.center_vertical` (utils.py lines 287-289). -/
def center_vertical (b o : Box) : Box :=
  of_size b.p1.x (o.p1.y.add ((o.h.sub b.h).divConst 2)) b.w b.h

/-- `Box.center_horizontal` (utils.py lines 291-293). -/
def center_horizontal (b o : Box) : Box :=
  of_size (o.p1.x.add ((o.w.sub b.w).divConst 2)) b.p1.y b.w b.h

/-- `Box.center` (utils.py lines 295-297). -/
def center (b o : Box) : Box :=
  of_size (o.p1.x.add ((o.w.sub b.w).divConst 2))
    (o.p1.y.add ((o.h.sub b.h).divConst 2)) b.w b.h

/-- `Box.prior_to` (utils.py lines 299-304): identity. -/
def prior_to (b _o : Box) : Box := b

/-- `Box.relative_to` (utils.py lines 306-314): dispatch on the relation
name; an unknown name raises `ValueError` (`InvalidRelation`). -/
def relative_to (b o : Box) (rel : String) : Except Err Box :=
  if rel = "above" then .ok (b.above o)
  else if rel = "below" then .ok (b.below o)
  else if rel = "left" then .ok (b.left o)
  else if rel = "right" then .ok (b.right o)
  else if rel = "align_top" then .ok (b.align_top o)
  else if rel = "align_bottom" then .ok (b.align_bottom o)
  else if rel = "align_left" then .ok (b.align_left o)
  else if rel = "align_right" then .ok (b.align_right o)
  else if rel = "center_vertical" then .ok (b.center_vertical o)
  else if rel = "center_horizontal" then .ok (b.center_horizontal o)
  else if rel = "center" then .ok (b.center o)
  else if rel = "prior_to" then .ok (b.prior_to o)
  else .error .invalidRelativeType

/-- `Box.constrain` (utils.py lines 316-327): an `Inequality` (a polynomial
meant as `poly >= 0`) built via `Inequality.less`/`Inequality.greater`, which
reduce to a polynomial subtraction. -/
def constrain (b o : Box) (c : String) : Except Err LinearPolynomial :=
  if c = "left" then .ok (o.x1.sub b.x2)
  else if c = "right" then .ok (b.x1.sub o.x2)
  else if c = "above" then .ok (o.y1.sub b.y2)
  else if c = "below" then .ok (b.y1.sub o.y2)
  else .error .invalidConstraint

/-- `Box.offset` (utils.py lines 329-330) for constant displacements:
`Box.of_size(p1.x + dx, p1.y + dy, w, h)`. -/
def offset (b : Box) (dx dy : ℚ) : Box :=
  of_size (b.p1.x.addConst dx) (b.p1.y.addConst dy) b.w b.h

end Box

namespace LinearPolynomial

/-- `Inequality.solvable` (utils.py lines 163-172): exactly one free
variable remains. -/
def solvable (p : LinearPolynomial) : Prop := p.symbols.card = 1

instance (p : LinearPolynomial) : Decidable p.solvable := by
  unfold solvable; infer_instance

/-- `Inequality.var` (utils.py lines 174-176): `next(iter(symbols))`; only
meaningful when the dict is nonempty (Python raises `StopIteration`
otherwise, a state never reached by the orchestrator). -/
def varOf (p : LinearPolynomial) : String := p.keyList.head?.getD ""

/-- `Inequality.solve` (utils.py lines 182-197):
`(var, symbols[var] > 0, -const / symbols[var])`. -/
def solve (p : LinearPolynomial) : String × Bool × ℚ :=
  (p.varOf, decide (0 < p.coef p.varOf), -p.const / p.coef p.varOf)

lemma evalGo_eq_some {p : LinearPolynomial} {b : String → Option ℚ}
    {l : List String} (hl : ∀ k ∈ l, (b k).isSome) :
    evalGo p b l = some ((l.map (fun k => p.coef k * (b k).getD 0)).sum) := by
  induction l with
  | nil => rfl
  | cons k ks ih =>
    have hk : (b k).isSome := hl k (List.mem_cons_self k ks)
    obtain ⟨v, hv⟩ := Option.isSome_iff_exists.mp hk
    rw [evalGo, ih (fun t ht => hl t (List.mem_cons_of_mem k ht)), hv]
    simp [hv]

lemma evalGo_eq_none {p : LinearPolynomial} {b : String → Option ℚ}
    {l : List String} (hl : ∃ k ∈ l, b k = none) :
    evalGo p b l = none := by
  induction l with
  | nil => simp at hl
  | cons k ks ih =>
    rw [evalGo]
    rcases hl with ⟨t, ht, hnone⟩
    rcases List.mem_cons.mp ht with rfl | hts
    · rw [hnone]
    · rw [ih ⟨t, hts, hnone⟩]
      cases b k <;> rfl

lemma sum_keyList (p : LinearPolynomial) (f : String → ℚ) :
    (p.keyList.map f).sum = ∑ k ∈ p.symbols, f k := by
  unfold keyList
  rw [List.Perm.sum_eq (List.Perm.map f (Finset.sort_perm_toList _ p.symbols))]
  exact Finset.sum_to_list p.symbols f

end LinearPolynomial

open LinearPolynomial

/-- The constraint-tightening step of `RelativeContainer._infer_size`
(container.py lines 222-231) for one derived inequality: if the inequality
is solvable (exactly one free variable) and that variable is the width or
height symbol, solve it and, when it is a lower bound (`greater`), raise the
running value by `max`; in every other case leave both values unchanged. -/
def tightenOne (wc hc : ℚ) (ineq : LinearPolynomial) : ℚ × ℚ :=
  if ineq.solvable ∧ (ineq.varOf = "w" ∨ ineq.varOf = "h") then
    if ineq.solve.2.1 ∧ ineq.solve.1 = "w" then (max wc ineq.solve.2.2, hc)
    else if ineq.solve.2.1 ∧ ineq.solve.1 = "h" then (wc, max hc ineq.solve.2.2)
    else (wc, hc)
  else (wc, hc)

/-- The concrete box of the spec example for the relation algebra:
`Box.of_size(0,0,10,10).right(Box.of_size(0,0,10,10))`. -/
def exampleRightBox : Box :=
  (Box.of_size (ofConst 0) (ofConst 0) (ofConst 10) (ofConst 10)).right
    (Box.of_size (ofConst 0) (ofConst 0) (ofConst 10) (ofConst 10))

/-- C7: `Box.of_size(0,0,10,10).right(Box.of_size(0,0,10,10))` yields the box
`x1=10, y1=0, x2=20, y2=10`; and in general `right` anchors the dependent
box's `x1` at the reference box's `x2` while preserving the dependent box's
own width and height (as evaluated denotations). -/
theorem box_right_spec :
    (exampleRightBox.x1.pythonEq (ofConst 10)
      ∧ exampleRightBox.y1.pythonEq (ofConst 0)
      ∧ exampleRightBox.x2.pythonEq (ofConst 20)
      ∧ exampleRightBox.y2.pythonEq (ofConst 10))
    ∧ ∀ (a b : Box) (env : String → ℚ),
        (a.right b).x1 = b.x2
        ∧ (a.right b).w.evalT env = a.w.evalT env
        ∧ (a.right b).h.evalT env = a.h.evalT env := by
  constructor
  · exact ⟨by with_unfolding_all decide, by with_unfolding_all decide,
      by with_unfolding_all decide, by with_unfolding_all decide⟩
  · intro a b env
    refine ⟨rfl, ?_, ?_⟩
    · show ((b.p2.x.add a.w).sub b.p2.x).evalT env = a.w.evalT env
      rw [evalT_sub, evalT_add]
      ring
    · show ((a.p1.y.add a.h).sub a.p1.y).evalT env = a.h.evalT env
      rw [evalT_sub, evalT_add]
      ring

/-- C8: `box.offset(dx,dy).offset(-dx,-dy)` evaluates, under every variable
binding, to the same four coordinates as `box`. -/
theorem offset_round_trip (b : Box) (dx dy : ℚ) (env : String → ℚ) :
    ((b.offset dx dy).offset (-dx) (-dy)).x1.evalT env = b.x1.evalT env
    ∧ ((b.offset dx dy).offset (-dx) (-dy)).y1.evalT env = b.y1.evalT env
    ∧ ((b.offset dx dy).offset (-dx) (-dy)).x2.evalT env = b.x2.evalT env
    ∧ ((b.offset dx dy).offset (-dx) (-dy)).y2.evalT env = b.y2.evalT env := by
  refine ⟨?_, ?_, ?_, ?_⟩ <;>
    simp only [Box.offset, Box.of_size, Box.x1, Box.x2, Box.y1, Box.y2, Box.w,
      Box.h, evalT_add, evalT_sub, evalT_addConst] <;> ring

/-- C9: `eval` returns the constant plus the sum of coefficient times bound
value over all dict entries when every referenced variable is bound, and
fails (missing variable) as soon as some referenced variable is unbound. -/
theorem eval_spec (p : LinearPolynomial) (b : String → Option ℚ) :
    ((∀ k ∈ p.symbols, (b k).isSome) →
      p.eval b = some (p.const + ∑ k ∈ p.symbols, p.coef k * (b k).getD 0))
    ∧ ((∃ k ∈ p.symbols, b k = none) → p.eval b = none) := by
  constructor
  · intro hall
    have hl : ∀ k ∈ p.keyList, (b k).isSome := by
      intro k hk
      exact hall k ((Finset.mem_sort (· ≤ ·)
        : k ∈ p.symbols.sort (· ≤ ·) ↔ k ∈ p.symbols).mp hk)
    rw [eval, evalGo_eq_some hl, Option.map_some', sum_keyList]
  · rintro ⟨k, hk, hnone⟩
    have : ∃ t ∈ p.keyList, b t = none :=
      ⟨k, (Finset.mem_sort (· ≤ ·)
        : k ∈ p.symbols.sort (· ≤ ·) ↔ k ∈ p.symbols).mpr hk, hnone⟩
    rw [eval, evalGo_eq_none this, Option.map_none']

/-- A concrete binding map for the `eval` witness: binds only `w`. -/
def exBind : String → Option ℚ := fun t => if t = "w" then some 3 else none

/-- Witness for C9 at a concrete polynomial and concrete bindings. -/
theorem eval_spec_witness :
    (∀ k ∈ (single "w" 2).symbols, (exBind k).isSome) ∧
    (single "w" 2).eval exBind
      = some ((single "w" 2).const + ∑ k ∈ (single "w" 2).symbols,
          (single "w" 2).coef k * (exBind k).getD 0) :=
  ⟨by with_unfolding_all decide,
    (eval_spec (single "w" 2) exBind).1 (by with_unfolding_all decide)⟩

namespace LinearPolynomial

lemma symbols_neg (p : LinearPolynomial) : p.neg.symbols = p.symbols := rfl

lemma symbols_sub_self (p : LinearPolynomial) : (p.sub p).symbols = ∅ := by
  rw [Finset.eq_empty_iff_forall_not_mem]
  intro k hk
  rw [sub, add] at hk
  simp only [Finset.mem_filter] at hk
  exact hk.2 (by rw [coef_neg]; ring)

lemma const_sub_self (p : LinearPolynomial) : (p.sub p).const = 0 := by
  rw [const_sub, sub_self]

end LinearPolynomial

/-- C10: equality is structural on the constant and on the coefficient dict,
and only `+`/`-` drop zero coefficients while `*` does not: for a
non-constant `p`, `p - p` is the constant `0` (and `is_const`), while `p * 0`
keeps its explicit zero entries, so it is neither equal to `0` nor
`is_const`, even though both denote the zero function. -/
theorem structural_eq_zero_coef_spec (p : LinearPolynomial) (hp : ¬p.isConst) :
    (p.sub p).pythonEq (ofConst 0)
    ∧ (p.sub p).isConst
    ∧ (p.mulConst 0).symbols = p.symbols
    ∧ (∀ k ∈ (p.mulConst 0).symbols, (p.mulConst 0).coef k = 0)
    ∧ ¬(p.mulConst 0).pythonEq (ofConst 0)
    ∧ ¬(p.mulConst 0).isConst
    ∧ ∀ env : String → ℚ,
        (p.sub p).evalT env = 0 ∧ (p.mulConst 0).evalT env = 0 := by
  refine ⟨⟨p.const_sub_self, p.symbols_sub_self, ?_⟩, p.symbols_sub_self, rfl,
    ?_, ?_, ?_, ?_⟩
  · intro k hk
    rw [p.symbols_sub_self] at hk
    exact absurd hk (Finset.not_mem_empty k)
  · intro k _
    rw [coef_mulConst, mul_zero]
  · rintro ⟨-, hsym, -⟩
    exact hp (by rwa [symbols_mulConst] at hsym)
  · intro hconst
    exact hp (by rwa [isConst, symbols_mulConst] at hconst)
  · intro env
    constructor
    · rw [evalT_sub, sub_self]
    · rw [evalT_mulConst, mul_zero]

/-- Witness for C10 at the concrete non-constant polynomial `w`. -/
theorem structural_eq_zero_coef_spec_witness :
    ¬(single "w" 1).isConst
    ∧ ((single "w" 1).sub (single "w" 1)).pythonEq (ofConst 0)
    ∧ ¬((single "w" 1).mulConst 0).pythonEq (ofConst 0) :=
  ⟨by with_unfolding_all decide,
    (structural_eq_zero_coef_spec (single "w" 1)
      (by with_unfolding_all decide)).1,
    (structural_eq_zero_coef_spec (single "w" 1)
      (by with_unfolding_all decide)).2.2.2.2.1⟩

/-- C5: during constraint tightening, an inequality with more than one free
variable, or whose single variable is not the width/height symbol, or which
yields an upper bound (negative coefficient), is skipped without changing
anything or raising; a solvable lower bound on `w` (resp. `h`) replaces the
running value by the max of the current value and the bound.  `tightenOne` is
a total function, so no upper-bound or infeasibility error can occur. -/
theorem tighten_spec (wc hc : ℚ) (ineq : LinearPolynomial) :
    (1 < ineq.symbols.card → tightenOne wc hc ineq = (wc, hc))
    ∧ (ineq.solvable → ineq.varOf ≠ "w" → ineq.varOf ≠ "h" →
        tightenOne wc hc ineq = (wc, hc))
    ∧ (ineq.solvable → ineq.coef ineq.varOf < 0 →
        tightenOne wc hc ineq = (wc, hc))
    ∧ (ineq.solvable → ineq.varOf = "w" → 0 < ineq.coef ineq.varOf →
        tightenOne wc hc ineq = (max wc (-ineq.const / ineq.coef ineq.varOf), hc))
    ∧ (ineq.solvable → ineq.varOf = "h" → 0 < ineq.coef ineq.varOf →
        tightenOne wc hc ineq = (wc, max hc (-ineq.const / ineq.coef ineq.varOf))) := by
  refine ⟨?_, ?_, ?_, ?_, ?_⟩
  · intro h
    rw [tightenOne, if_neg]
    rintro ⟨hs, -⟩
    rw [solvable] at hs
    omega
  · intro _ hw hh
    rw [tightenOne, if_neg]
    rintro ⟨-, hor⟩
    rcases hor with h | h
    · exact hw h
    · exact hh h
  · intro hs hneg
    by_cases hcond : ineq.solvable ∧ (ineq.varOf = "w" ∨ ineq.varOf = "h")
    · rw [tightenOne, if_pos hcond]
      have hfalse : ineq.solve.2.1 = false := by
        simp only [solve, decide_eq_false_iff_not, not_lt]
        exact le_of_lt hneg
      simp [hfalse]
    · rw [tightenOne, if_neg hcond]
  · intro hs hw hpos
    have htrue : ineq.solve.2.1 = true := by
      simp only [solve, decide_eq_true_eq]
      exact hpos
    have hvar : ineq.solve.1 = "w" := hw
    rw [tightenOne, if_pos ⟨hs, Or.inl hw⟩, if_pos ⟨htrue, hvar⟩]
    rfl
  · intro hs hh hpos
    have htrue : ineq.solve.2.1 = true := by
      simp only [solve, decide_eq_true_eq]
      exact hpos
    have hvar : ineq.solve.1 = "h" := hh
    have hnw : ¬(ineq.solve.2.1 = true ∧ ineq.solve.1 = "w") := by
      rintro ⟨-, hw⟩
      rw [hvar] at hw
      exact absurd hw (by decide)
    rw [tightenOne, if_pos ⟨hs, Or.inr hh⟩, if_neg hnw, if_pos ⟨htrue, hvar⟩]
    rfl

/-- A two-variable inequality polynomial used as the `tightenOne` witness. -/
def twoVarIneq : LinearPolynomial := ⟨0, fun _ => 1, {"x", "w"}⟩

/-- Witness for C5: a two-free-variable inequality is skipped unchanged. -/
theorem tighten_spec_witness :
    1 < twoVarIneq.symbols.card ∧ tightenOne 5 7 twoVarIneq = (5, 7) :=
  ⟨by decide, (tighten_spec 5 7 twoVarIneq).1 (by decide)⟩

/-- Python `set.add` on a set modelled as an insertion-ordered duplicate-free
list. -/
def pysetAdd {α : Type} [DecidableEq α] (l : List α) (a : α) : List α :=
  if a ∈ l then l else l ++ [a]

/-- Pointwise update of a function, modelling one dict entry assignment. -/
def fupd {α β : Type} [DecidableEq α] (f : α → β) (a : α) (b : β) : α → β :=
  fun t => if t = a then b else f t

/-- Embedding of `DependencyGraph` (utils.py lines 336-393).  The two Python
dicts `graph`/`reverse_graph` share their key list (`nodes`, in insertion
order); their set values are the functions `succ`/`pred`; `labels` is the
`edge` dict. -/
structure DependencyGraph (Node : Type) (Edge : Type) where
  nodes : List Node
  succ : Node → List Node
  pred : Node → List Node
  labels : Node → Node → List Edge

namespace DependencyGraph

variable {Node : Type} {Edge : Type} [DecidableEq Node] [DecidableEq Edge]

/-- `DependencyGraph()` (utils.py lines 339-345). -/
def empty : DependencyGraph Node Edge := ⟨[], fun _ => [], fun _ => [], fun _ _ => []⟩

/-- `add_node` (utils.py lines 347-350): `setdefault` on both dicts. -/
def add_node (g : DependencyGraph Node Edge) (n : Node) : DependencyGraph Node Edge :=
  { g with nodes := pysetAdd g.nodes n }

/-- `add_edge` (utils.py lines 352-358). -/
def add_edge (g : DependencyGraph Node Edge) (n s : Node) (e : Edge) :
    DependencyGraph Node Edge where
  nodes := pysetAdd (pysetAdd g.nodes n) s
  succ := fupd g.succ n (pysetAdd (g.succ n) s)
  pred := fupd g.pred s (pysetAdd (g.pred s) n)
  labels := fun a b =>
    if a = n ∧ b = s then pysetAdd (g.labels n s) e else g.labels a b

/-- `get_predecessors` (utils.py lines 360-361). -/
def get_predecessors (g : DependencyGraph Node Edge) (n : Node) : List Node := g.pred n

/-- `get_edges` (utils.py lines 363-364). -/
def get_edges (g : DependencyGraph Node Edge) (n s : Node) : List Edge := g.labels n s

/-- The inner `for successor in self.graph.get(node, [])` loop of
`topological_sort` (utils.py lines 387-390): erase `node` from each
successor's remaining-predecessor set, pushing a successor whose set becomes
empty. -/
def processSuccs (node : Node) (st : (Node → List Node) × List Node)
    (succs : List Node) : (Node → List Node) × List Node :=
  succs.foldl
    (fun st s =>
      (fupd st.1 s ((st.1 s).erase node),
        if ((st.1 s).erase node).isEmpty then s :: st.2 else st.2))
    st

/-- The `while queue` loop of `topological_sort` (utils.py lines 384-390),
with explicit fuel (the caller passes the node count, which suffices: each
iteration appends one node to the result, and at most every node is
appended). -/
def kahnLoop (g : DependencyGraph Node Edge) :
    Nat → (Node → List Node) → List Node → List Node → List Node
  | 0, _, _, res => res
  | fuel + 1, rg, stack, res =>
    match stack with
    | [] => res
    | node :: rest =>
      let st := processSuccs node (rg, rest) (g.succ node)
      kahnLoop g fuel st.1 st.2 (res ++ [node])

/-- `topological_sort` (utils.py lines 366-393): Kahn's algorithm.  The seed
queue collects the zero-in-degree nodes in dict order; `list.pop()` pops at
the back, so the running queue is a stack, modelled with its top at the
head (hence the initial `reverse`). -/
def topological_sort (g : DependencyGraph Node Edge) : Except Err (List Node) :=
  let stack := (g.nodes.filter (fun t => (g.pred t).isEmpty)).reverse
  let res := kahnLoop g g.nodes.length g.pred stack []
  if res.length = g.nodes.length then .ok res else .error .cyclicDependency

/-- Well-formedness of a graph as maintained by `add_node`/`add_edge`:
duplicate-free node list and successor/predecessor sets, predecessor sets
mirroring successor sets, and all edge endpoints registered as nodes. -/
def WF (g : DependencyGraph Node Edge) : Prop :=
  g.nodes.Nodup ∧ (∀ n, (g.succ n).Nodup) ∧ (∀ n, (g.pred n).Nodup)
  ∧ (∀ u v, u ∈ g.pred v ↔ v ∈ g.succ u)
  ∧ (∀ u v, v ∈ g.succ u → u ∈ g.nodes ∧ v ∈ g.nodes)

/-- A graph contains a cycle: some node reaches itself through a nonempty
chain of edges. -/
def HasCycle (g : DependencyGraph Node Edge) : Prop :=
  ∃ n, Relation.TransGen (fun u v => v ∈ g.succ u) n n

/-- `u` occurs strictly before `v` in the list `res`. -/
def precedesIn (res : List Node) (u v : Node) : Prop :=
  ∃ (i j : Nat) (hi : i < res.length) (hj : j < res.length),
    i < j ∧ res.get ⟨i, hi⟩ = u ∧ res.get ⟨j, hj⟩ = v

/-- Loop invariant of the Kahn loop. -/
structure KahnInv (g : DependencyGraph Node Edge) (rg : Node → List Node)
    (stack res : List Node) : Prop where
  res_nodup : res.Nodup
  stack_nodup : stack.Nodup
  disj : ∀ n ∈ stack, n ∉ res
  stack_sub : ∀ n ∈ stack, n ∈ g.nodes
  res_sub : ∀ n ∈ res, n ∈ g.nodes
  rg_eq : ∀ s, rg s = (g.pred s).filter (fun p => decide (p ∉ res))
  stack_done : ∀ n ∈ stack, ∀ p ∈ g.pred n, p ∈ res
  pending : ∀ n ∈ g.nodes, n ∉ res → n ∉ stack → ∃ p ∈ g.pred n, p ∉ res
  ordered : ∀ (i : Nat) (h : i < res.length),
    ∀ p ∈ g.pred (res.get ⟨i, h⟩), p ∈ res.take i

lemma processSuccs_eq (node : Node) (succs : List Node) (hnd : succs.Nodup) :
    ∀ (rg : Node → List Node) (stack : List Node),
      processSuccs node (rg, stack) succs
        = (fun t => if t ∈ succs then (rg t).erase node else rg t,
            (succs.filter (fun s => ((rg s).erase node).isEmpty)).reverse ++ stack) := by
  induction succs with
  | nil =>
    intro rg stack
    simp [processSuccs]
  | cons s rest ih =>
    intro rg stack
    have hs : s ∉ rest := (List.nodup_cons.mp hnd).1
    have hrest : rest.Nodup := (List.nodup_cons.mp hnd).2
    show processSuccs node
        (fupd rg s ((rg s).erase node),
          if ((rg s).erase node).isEmpty then s :: stack else stack) rest = _
    rw [ih hrest]
    have hrg1 : ∀ q ∈ rest, (fupd rg s ((rg s).erase node)) q = rg q := by
      intro q hq
      have : q ≠ s := fun h => hs (h ▸ hq)
      simp [fupd, this]
    simp only [Prod.mk.injEq]
    constructor
    · funext t
      by_cases ht : t ∈ rest
      · rw [if_pos ht, if_pos (List.mem_cons_of_mem s ht), hrg1 t ht]
      · rw [if_neg ht]
        by_cases hts : t = s
        · subst hts
          rw [if_pos (List.mem_cons_self t rest)]
          simp [fupd]
        · rw [if_neg (by simp [hts, ht])]
          simp [fupd, hts]
    · rw [List.filter_congr (fun q hq => by rw [hrg1 q hq])]
      by_cases hc : ((rg s).erase node).isEmpty
      · rw [List.filter_cons_of_pos (by simpa using hc)]
        simp [hc]
      · rw [List.filter_cons_of_neg (by simpa using hc)]
        simp [hc]

end DependencyGraph

namespace DependencyGraph

variable {Node : Type} {Edge : Type} [DecidableEq Node]

lemma kahnInv_step {g : DependencyGraph Node Edge} (hwf : g.WF)
    {node : Node} {rest res : List Node} {rg : Node → List Node}
    (hInv : KahnInv g rg (node :: rest) res) :
    KahnInv g
      (fun t => if t ∈ g.succ node then (rg t).erase node else rg t)
      (((g.succ node).filter (fun s => ((rg s).erase node).isEmpty)).reverse ++ rest)
      (res ++ [node]) := by
  obtain ⟨hnodes_nd, hsucc_nd, hpred_nd, hpi, hends⟩ := hwf
  have F1 : node ∉ res := hInv.disj node (List.mem_cons_self node rest)
  have F2 : ∀ p ∈ g.pred node, p ∈ res :=
    hInv.stack_done node (List.mem_cons_self node rest)
  have F3 : node ∈ g.nodes := hInv.stack_sub node (List.mem_cons_self node rest)
  have Fnode_rest : node ∉ rest := (List.nodup_cons.mp hInv.stack_nodup).1
  have Frest_nd : rest.Nodup := (List.nodup_cons.mp hInv.stack_nodup).2
  have rgFilter : ∀ s, (rg s).Nodup := by
    intro s
    rw [hInv.rg_eq s]
    exact (hpred_nd s).filter _
  -- fact A: a pushed node is fresh
  have factA : ∀ s ∈ g.succ node, s ∉ res ∧ s ≠ node ∧ s ∉ rest := by
    intro s hsS
    have hpredS : node ∈ g.pred s := (hpi node s).mpr hsS
    refine ⟨?_, ?_, ?_⟩
    · intro hres
      obtain ⟨⟨i, hi⟩, hget⟩ := List.mem_iff_get.mp hres
      have := hInv.ordered i hi node (by rwa [hget])
      exact F1 (List.take_subset i res this)
    · intro heq
      subst heq
      exact F1 (F2 s hpredS)
    · intro hrest
      exact F1 (hInv.stack_done s (List.mem_cons_of_mem node hrest) node hpredS)
  -- fact B: an emptied successor has all predecessors processed (or = node)
  have factB : ∀ s ∈ g.succ node, ((rg s).erase node).isEmpty →
      ∀ p ∈ g.pred s, p ∈ res ++ [node] := by
    intro s _ hemp p hp
    by_cases hpres : p ∈ res
    · exact List.mem_append_left _ hpres
    · have hpin : p ∈ rg s := by
        rw [hInv.rg_eq s, List.mem_filter]
        exact ⟨hp, by simpa using hpres⟩
      have hfilnil : List.filter (· != node) (rg s) = [] := by
        rw [← (rgFilter s).erase_eq_filter node]
        exact List.isEmpty_iff.mp hemp
      by_cases hpnode : p = node
      · subst hpnode
        exact List.mem_append_right _ (List.mem_singleton_self p)
      · have hmem : p ∈ List.filter (· != node) (rg s) :=
          List.mem_filter.mpr ⟨hpin, by simpa using hpnode⟩
        rw [hfilnil] at hmem
        exact absurd hmem (List.not_mem_nil p)
  -- fact C: a non-emptied successor still has an unprocessed predecessor
  have factC : ∀ s ∈ g.succ node, ¬((rg s).erase node).isEmpty →
      ∃ p ∈ g.pred s, p ∉ res ++ [node] := by
    intro s _ hne
    have hnn : (rg s).erase node ≠ [] := by
      intro h
      apply hne
      rw [h]
      rfl
    obtain ⟨x, hx⟩ := List.exists_mem_of_ne_nil _ hnn
    have hxrg : x ∈ rg s := List.mem_of_mem_erase hx
    have hxne : x ≠ node := (List.Nodup.mem_erase_iff (rgFilter s)).mp hx |>.1
    rw [hInv.rg_eq s, List.mem_filter] at hxrg
    refine ⟨x, hxrg.1, ?_⟩
    rw [List.mem_append]
    rintro (h | h)
    · have hxnr : x ∉ res := by simpa using hxrg.2
      exact hxnr h
    · exact hxne (List.mem_singleton.mp h)
  have pushes_sub : ∀ s ∈ (g.succ node).filter
      (fun s => ((rg s).erase node).isEmpty), s ∈ g.succ node :=
    fun s hs => (List.mem_filter.mp hs).1
  refine ⟨?_, ?_, ?_, ?_, ?_, ?_, ?_, ?_, ?_⟩
  · rw [List.nodup_append]
    exact ⟨hInv.res_nodup, List.nodup_singleton node,
      fun a ha hb => F1 ((List.mem_singleton.mp hb) ▸ ha)⟩
  · rw [List.nodup_append]
    refine ⟨List.nodup_reverse.mpr ((hsucc_nd node).filter _), Frest_nd, ?_⟩
    intro a ha hb
    have := factA a (pushes_sub a (List.mem_reverse.mp ha))
    exact this.2.2 hb
  · intro n hn
    rw [List.mem_append] at hn
    rw [List.mem_append]
    rintro (h | h)
    · rcases hn with hn | hn
      · exact (factA n (pushes_sub n (List.mem_reverse.mp hn))).1 h
      · exact hInv.disj n (List.mem_cons_of_mem node hn) h
    · have hne : n = node := List.mem_singleton.mp h
      rcases hn with hn | hn
      · exact (factA n (pushes_sub n (List.mem_reverse.mp hn))).2.1 hne
      · exact Fnode_rest (hne ▸ hn)
  · intro n hn
    rw [List.mem_append] at hn
    rcases hn with hn | hn
    · exact (hends node n (pushes_sub n (List.mem_reverse.mp hn))).2
    · exact hInv.stack_sub n (List.mem_cons_of_mem node hn)
  · intro n hn
    rw [List.mem_append] at hn
    rcases hn with hn | hn
    · exact hInv.res_sub n hn
    · exact (List.mem_singleton.mp hn) ▸ F3
  · intro s
    by_cases hsS : s ∈ g.succ node
    · rw [if_pos hsS, hInv.rg_eq s,
        ((hpred_nd s).filter _).erase_eq_filter node, List.filter_filter]
      apply List.filter_congr
      intro x _
      by_cases hxn : x = node
      · subst hxn
        simp
      · by_cases hxr : x ∈ res <;> simp [hxn, hxr]
    · rw [if_neg hsS, hInv.rg_eq s]
      apply List.filter_congr
      intro x hx
      have hxn : x ≠ node := by
        intro h
        subst h
        exact hsS ((hpi x s).mp hx)
      by_cases hxr : x ∈ res <;> simp [hxn, hxr]
  · intro n hn
    rw [List.mem_append] at hn
    rcases hn with hn | hn
    · have hmem := List.mem_reverse.mp hn
      exact factB n (pushes_sub n hmem) (List.mem_filter.mp hmem).2
    · intro p hp
      exact List.mem_append_left _
        (hInv.stack_done n (List.mem_cons_of_mem node hn) p hp)
  · intro n hnodes hnres hnstack
    rw [List.mem_append] at hnres hnstack
    push_neg at hnres hnstack
    have hn_res : n ∉ res := hnres.1
    have hn_node : n ≠ node := by
      intro h
      exact hnres.2 (by rw [h]; exact List.mem_singleton_self node)
    have hn_pushes : n ∉ ((g.succ node).filter
        (fun s => ((rg s).erase node).isEmpty)).reverse := hnstack.1
    have hn_rest : n ∉ rest := hnstack.2
    obtain ⟨p, hp, hpres⟩ := hInv.pending n hnodes hn_res
      (by
        rw [List.mem_cons]
        rintro (h | h)
        · exact hn_node h
        · exact hn_rest h)
    by_cases hpn : p = node
    · subst hpn
      have hnS : n ∈ g.succ p := (hpi p n).mp hp
      have hncond : ¬((rg n).erase p).isEmpty := by
        intro hcond
        exact hn_pushes (List.mem_reverse.mpr (List.mem_filter.mpr ⟨hnS, by simpa using hcond⟩))
      exact factC n hnS hncond
    · refine ⟨p, hp, ?_⟩
      rw [List.mem_append, List.mem_singleton]
      rintro (h | h)
      · exact hpres h
      · exact hpn h
  · intro i hi p hp
    have hlen : (res ++ [node]).length = res.length + 1 := by simp
    rcases Nat.lt_succ_iff_lt_or_eq.mp (by omega : i < res.length + 1) with hilt | hieq
    · have hget : (res ++ [node]).get ⟨i, hi⟩ = res.get ⟨i, hilt⟩ := by
        simp [List.getElem_append_left hilt]
      rw [hget] at hp
      have htake : (res ++ [node]).take i = res.take i := by
        rw [List.take_append_eq_append_take]
        have : i - res.length = 0 := by omega
        simp [this]
      rw [htake]
      exact hInv.ordered i hilt p hp
    · subst hieq
      have hget : (res ++ [node]).get ⟨res.length, hi⟩ = node := by
        simp
      rw [hget] at hp
      have htake : (res ++ [node]).take res.length = res := List.take_left res [node]
      rw [htake]
      exact F2 p hp

end DependencyGraph

namespace DependencyGraph

variable {Node : Type} {Edge : Type} [DecidableEq Node]

lemma kahnInv_init (g : DependencyGraph Node Edge) (hwf : g.WF) :
    KahnInv g g.pred ((g.nodes.filter (fun t => (g.pred t).isEmpty)).reverse) [] := by
  obtain ⟨hnodes_nd, _, _, _, _⟩ := hwf
  refine ⟨List.nodup_nil, ?_, ?_, ?_, ?_, ?_, ?_, ?_, ?_⟩
  · exact List.nodup_reverse.mpr (hnodes_nd.filter _)
  · intro n _
    exact List.not_mem_nil n
  · intro n hn
    exact (List.mem_filter.mp (List.mem_reverse.mp hn)).1
  · intro n hn
    exact absurd hn (List.not_mem_nil n)
  · intro s
    refine (List.filter_eq_self.mpr ?_).symm
    intro a _
    simp
  · intro n hn p hp
    have := (List.mem_filter.mp (List.mem_reverse.mp hn)).2
    rw [List.isEmpty_iff] at this
    rw [this] at hp
    exact absurd hp (List.not_mem_nil p)
  · intro n hnodes _ hnstack
    have hnem : ¬(g.pred n).isEmpty := by
      intro he
      exact hnstack (List.mem_reverse.mpr (List.mem_filter.mpr ⟨hnodes, by simpa using he⟩))
    rw [List.isEmpty_iff] at hnem
    obtain ⟨p, hp⟩ := List.exists_mem_of_ne_nil _ hnem
    exact ⟨p, hp, List.not_mem_nil p⟩
  · intro i hi
    exact absurd hi (by simp)

lemma mem_of_full {res l : List Node} (hnd : res.Nodup) (hlnd : l.Nodup)
    (hsub : ∀ x ∈ res, x ∈ l) (hlen : l.length ≤ res.length) :
    ∀ x ∈ l, x ∈ res := by
  have h1 : res.toFinset.card = res.length := List.toFinset_card_of_nodup hnd
  have h2 : l.toFinset.card = l.length := List.toFinset_card_of_nodup hlnd
  have hfsub : res.toFinset ⊆ l.toFinset := by
    intro x hx
    exact List.mem_toFinset.mpr (hsub x (List.mem_toFinset.mp hx))
  have : l.toFinset = res.toFinset :=
    (Finset.eq_of_subset_of_card_le hfsub (by omega)).symm
  intro x hx
  have : x ∈ res.toFinset := this ▸ List.mem_toFinset.mpr hx
  exact List.mem_toFinset.mp this

lemma kahnLoop_end {g : DependencyGraph Node Edge} (hwf : g.WF) :
    ∀ (fuel : Nat) (rg : Node → List Node) (stack res : List Node),
      KahnInv g rg stack res → g.nodes.length ≤ fuel + res.length →
      ∃ rg', KahnInv g rg' [] (kahnLoop g fuel rg stack res) := by
  intro fuel
  induction fuel with
  | zero =>
    intro rg stack res hInv hle
    cases stack with
    | nil => exact ⟨rg, hInv⟩
    | cons node rest =>
      exfalso
      have hall : ∀ x ∈ g.nodes, x ∈ res :=
        mem_of_full hInv.res_nodup hwf.1 hInv.res_sub (by omega)
      exact hInv.disj node (List.mem_cons_self node rest)
        (hall node (hInv.stack_sub node (List.mem_cons_self node rest)))
  | succ fuel ih =>
    intro rg stack res hInv hle
    cases stack with
    | nil => exact ⟨rg, hInv⟩
    | cons node rest =>
      show ∃ rg', KahnInv g rg' []
        (kahnLoop g fuel (processSuccs node (rg, rest) (g.succ node)).1
          (processSuccs node (rg, rest) (g.succ node)).2 (res ++ [node]))
      rw [processSuccs_eq node (g.succ node) (hwf.2.1 node) rg rest]
      exact ih _ _ _ (kahnInv_step hwf hInv) (by simp; omega)

lemma cycle_of_pred_closed (r : Node → Node → Prop) (T : Finset Node)
    (hne : T.Nonempty) (hcl : ∀ n ∈ T, ∃ p ∈ T, r p n) :
    ∃ m, Relation.TransGen r m m := by
  classical
  have hf : ∀ t : {a // a ∈ T}, ∃ p : {a // a ∈ T}, r p.1 t.1 := by
    rintro ⟨a, ha⟩
    obtain ⟨p, hp, hr⟩ := hcl a ha
    exact ⟨⟨p, hp⟩, hr⟩
  choose f hfr using hf
  obtain ⟨x0, hx0⟩ := hne
  have key : ∀ (d : Nat) (t : {a // a ∈ T}),
      Relation.TransGen r (f^[d + 1] t).1 t.1 := by
    intro d
    induction d with
    | zero =>
      intro t
      exact Relation.TransGen.single (hfr t)
    | succ d ihd =>
      intro t
      have h1 : f^[d + 1 + 1] t = f^[d + 1] (f t) := by
        rw [Function.iterate_succ_apply]
      rw [h1]
      exact Relation.TransGen.trans (ihd (f t)) (Relation.TransGen.single (hfr t))
  have hcard : Fintype.card {a // a ∈ T} < Fintype.card (Fin (T.card + 1)) := by
    simp [Fintype.card_coe]
  obtain ⟨i, j, hij, heq⟩ :=
    Fintype.exists_ne_map_eq_of_card_lt
      (fun k : Fin (T.card + 1) => f^[k.1] ⟨x0, hx0⟩) hcard
  have main : ∀ i j : Nat, i < j →
      f^[i] (⟨x0, hx0⟩ : {a // a ∈ T}) = f^[j] ⟨x0, hx0⟩ →
      ∃ m, Relation.TransGen r m m := by
    intro i j hlt he
    have hd : j - i - 1 + 1 = j - i := by omega
    have h1 : f^[j] (⟨x0, hx0⟩ : {a // a ∈ T})
        = f^[j - i] (f^[i] ⟨x0, hx0⟩) := by
      rw [← Function.iterate_add_apply]
      congr 1
      omega
    have h2 := key (j - i - 1) (f^[i] (⟨x0, hx0⟩ : {a // a ∈ T}))
    rw [hd, ← h1, ← he] at h2
    exact ⟨(f^[i] (⟨x0, hx0⟩ : {a // a ∈ T})).1, h2⟩
  rcases lt_or_gt_of_ne (fun h : i = j => hij h) with hlt | hgt
  · exact main i.1 j.1 hlt heq
  · exact main j.1 i.1 hgt heq.symm

lemma indexOf_lt_of_mem_take :
    ∀ {l : List Node} {j : Nat} {a : Node}, a ∈ l.take j → l.indexOf a < j := by
  intro l
  induction l with
  | nil =>
    intro j a ha
    simp at ha
  | cons x t ih =>
    intro j a ha
    cases j with
    | zero => simp at ha
    | succ j =>
      rw [List.take_succ_cons] at ha
      rcases List.mem_cons.mp ha with rfl | hmem
      · rw [List.indexOf_cons_self]
        omega
      · by_cases hax : x = a
        · subst hax
          rw [List.indexOf_cons_self]
          omega
        · rw [List.indexOf_cons_ne t hax]
          have := ih hmem
          omega

end DependencyGraph

/-- C1: for every well-formed dependency graph without cycles,
`topological_sort` returns a permutation of all nodes in which every
predecessor appears before each of its successors; for every graph with a
cycle, it fails with `CyclicDependency` instead of returning a list. -/
theorem topological_sort_spec {Node Edge : Type} [DecidableEq Node]
    (g : DependencyGraph Node Edge) (hwf : g.WF) :
    (¬g.HasCycle → ∃ res, g.topological_sort = Except.ok res
        ∧ res.Perm g.nodes
        ∧ ∀ u v, v ∈ g.succ u → DependencyGraph.precedesIn res u v)
    ∧ (g.HasCycle → g.topological_sort = Except.error Err.cyclicDependency) := by
  classical
  obtain ⟨rg', hFin⟩ := DependencyGraph.kahnLoop_end hwf g.nodes.length g.pred
    ((g.nodes.filter (fun t => (g.pred t).isEmpty)).reverse) []
    (DependencyGraph.kahnInv_init g hwf) (by simp)
  set res := DependencyGraph.kahnLoop g g.nodes.length g.pred
    ((g.nodes.filter (fun t => (g.pred t).isEmpty)).reverse) [] with hres
  have hts : g.topological_sort
      = if res.length = g.nodes.length then Except.ok res
        else Except.error Err.cyclicDependency := rfl
  constructor
  · intro hnc
    have hall : ∀ n ∈ g.nodes, n ∈ res := by
      by_contra hcon
      push_neg at hcon
      obtain ⟨n0, hn0, hn0r⟩ := hcon
      have hT : ∀ m ∈ (g.nodes.filter (fun t => decide (t ∉ res))).toFinset,
          ∃ p ∈ (g.nodes.filter (fun t => decide (t ∉ res))).toFinset,
            (fun u v => v ∈ g.succ u) p m := by
        intro m hm
        rw [List.mem_toFinset, List.mem_filter] at hm
        have hm2 : m ∉ res := by simpa using hm.2
        obtain ⟨p, hp, hpres⟩ := hFin.pending m hm.1 hm2 (List.not_mem_nil m)
        have hps : m ∈ g.succ p := (hwf.2.2.2.1 p m).mp hp
        have hpn : p ∈ g.nodes := (hwf.2.2.2.2 p m hps).1
        refine ⟨p, ?_, hps⟩
        rw [List.mem_toFinset, List.mem_filter]
        exact ⟨hpn, by simpa using hpres⟩
      have hTne : (g.nodes.filter (fun t => decide (t ∉ res))).toFinset.Nonempty := by
        refine ⟨n0, ?_⟩
        rw [List.mem_toFinset, List.mem_filter]
        exact ⟨hn0, by simpa using hn0r⟩
      obtain ⟨m, hcyc⟩ := DependencyGraph.cycle_of_pred_closed
        (fun u v => v ∈ g.succ u) _ hTne hT
      exact hnc ⟨m, hcyc⟩
    have hsub : ∀ x ∈ res, x ∈ g.nodes := fun x hx => hFin.res_sub x hx
    have hperm : res.Perm g.nodes :=
      (List.subperm_of_subset hFin.res_nodup hsub).antisymm
        (List.subperm_of_subset hwf.1 hall)
    have hlen := hperm.length_eq
    refine ⟨res, ?_, hperm, ?_⟩
    · rw [hts, if_pos hlen]
    · intro u v hedge
      have hu : u ∈ g.pred v := (hwf.2.2.2.1 u v).mpr hedge
      have hv : v ∈ res := hall v (hwf.2.2.2.2 u v hedge).2
      obtain ⟨⟨j, hj⟩, hgetv⟩ := List.mem_iff_get.mp hv
      have horder := hFin.ordered j hj u (by rwa [hgetv])
      obtain ⟨⟨i, hi'⟩, hgettake⟩ := List.mem_iff_get.mp horder
      have hijlt : i < j := by
        have h1 := hi'
        rw [List.length_take] at h1
        omega
      have hi : i < res.length := by omega
      have hgetu : res.get ⟨i, hi⟩ = u := by
        rw [← hgettake]
        simp [List.getElem_take]
      exact ⟨i, j, hi, hj, hijlt, hgetu, hgetv⟩
  · rintro ⟨n, hcyc⟩
    have hnlen : res.length ≠ g.nodes.length := by
      intro hlen
      have hall : ∀ x ∈ g.nodes, x ∈ res :=
        DependencyGraph.mem_of_full hFin.res_nodup hwf.1 hFin.res_sub (by omega)
      have hmono : ∀ u v, v ∈ g.succ u → res.indexOf u < res.indexOf v := by
        intro u v hedge
        have hv : v ∈ res := hall v (hwf.2.2.2.2 u v hedge).2
        have hj : res.indexOf v < res.length := List.indexOf_lt_length.mpr hv
        have hgetv : res.get ⟨res.indexOf v, hj⟩ = v := List.indexOf_get hj
        have horder := hFin.ordered (res.indexOf v) hj u
          (by rw [hgetv]; exact (hwf.2.2.2.1 u v).mpr hedge)
        exact DependencyGraph.indexOf_lt_of_mem_take horder
      have htg : ∀ a b, Relation.TransGen (fun u v => v ∈ g.succ u) a b →
          res.indexOf a < res.indexOf b := by
        intro a b h
        induction h with
        | single h1 => exact hmono _ _ h1
        | tail _ h2 ih => exact lt_trans ih (hmono _ _ h2)
      exact absurd (htg n n hcyc) (lt_irrefl _)
    rw [hts, if_neg hnlen]

instance {Node Edge : Type} [DecidableEq Node] [Fintype Node]
    (g : DependencyGraph Node Edge) : Decidable g.WF := by
  unfold DependencyGraph.WF; infer_instance

/-- The concrete two-node acyclic graph `0 → 1` used as the C1 witness. -/
def exGraph : DependencyGraph (Fin 2) String :=
  (DependencyGraph.empty.add_node 0).add_edge 0 1 "right"

/-- Witness for C1 at a concrete well-formed graph. -/
theorem topological_sort_spec_witness :
    exGraph.WF
    ∧ ((¬exGraph.HasCycle → ∃ res, exGraph.topological_sort = Except.ok res
          ∧ res.Perm exGraph.nodes
          ∧ ∀ u v, v ∈ exGraph.succ u → DependencyGraph.precedesIn res u v)
        ∧ (exGraph.HasCycle →
            exGraph.topological_sort = Except.error Err.cyclicDependency)) :=
  ⟨by decide, topological_sort_spec exGraph (by decide)⟩

/-- `partition` (utils.py lines 396-413): split preserving order. -/
def pyPartition {α : Type} (p : α → Bool) : List α → List α × List α
  | [] => ([], [])
  | a :: t =>
    let r := pyPartition p t
    if p a then (a :: r.1, r.2) else (r.1, a :: r.2)

/-- Python `a or b` on lists: `a` if nonempty, else `b`. -/
def listOr {α : Type} (a b : List α) : List α := if a.isEmpty then b else a

/-- Python `min` over polynomials with the best-effort `__lt__`: keep the
current minimum, replacing it whenever `item < current`; an empty sequence
raises `ValueError`. -/
def pyMinE : List LinearPolynomial → Except Err LinearPolynomial
  | [] => .error .minEmptySequence
  | x :: xs => .ok (xs.foldl (fun m c => if c.ltPy m then c else m) x)

/-- Python `max` over polynomials: since `__gt__` is not defined, CPython
falls back to the reflected `current < item` comparison. -/
def pyMaxE : List LinearPolynomial → Except Err LinearPolynomial
  | [] => .error .minEmptySequence
  | x :: xs => .ok (xs.foldl (fun m c => if m.ltPy c then c else m) x)

/-- The container-box symbols (`container.py` lines 141-144 and 156-159). -/
def xSym : LinearPolynomial := single "x" 1

/-- The `y` container symbol. -/
def ySym : LinearPolynomial := single "y" 1

/-- The `w` container symbol. -/
def wSym : LinearPolynomial := single "w" 1

/-- The `h` container symbol. -/
def hSym : LinearPolynomial := single "h" 1

/-- `min(x1_x or x1_w)` (container.py lines 208, 212): partition the `x1`
components by (not) containing the width symbol; minimum over the
width-independent part, falling back to the width-dependent part. -/
def leftExtremeOf (l : List LinearPolynomial) : Except Err LinearPolynomial :=
  pyMinE (listOr (pyPartition (fun p => !decide (p.containsSymbol wSym)) l).1
    (pyPartition (fun p => !decide (p.containsSymbol wSym)) l).2)

/-- `max(x2_w or x2_x)` (container.py lines 210, 214): maximum over the
width-dependent `x2` components, falling back to the width-independent
part. -/
def rightExtremeOf (l : List LinearPolynomial) : Except Err LinearPolynomial :=
  pyMaxE (listOr (pyPartition (fun p => !decide (p.containsSymbol wSym)) l).2
    (pyPartition (fun p => !decide (p.containsSymbol wSym)) l).1)

/-- `min(y1_y or y1_h)` (container.py lines 209, 213). -/
def topExtremeOf (l : List LinearPolynomial) : Except Err LinearPolynomial :=
  pyMinE (listOr (pyPartition (fun p => !decide (p.containsSymbol hSym)) l).1
    (pyPartition (fun p => !decide (p.containsSymbol hSym)) l).2)

/-- `max(y2_h or y2_y)` (container.py lines 211, 215). -/
def bottomExtremeOf (l : List LinearPolynomial) : Except Err LinearPolynomial :=
  pyMaxE (listOr (pyPartition (fun p => !decide (p.containsSymbol hSym)) l).2
    (pyPartition (fun p => !decide (p.containsSymbol hSym)) l).1)

/-- The extreme/width computation of `_infer_size` (container.py lines
203-217): the four extremes and `width = max_x2 - min_x1`,
`height = max_y2 - min_y1` as symbolic polynomials. -/
def sizePolysOf (box_list : List Box) : Except Err (LinearPolynomial × LinearPolynomial) := do
  let min_x1 ← leftExtremeOf (box_list.map Box.x1)
  let min_y1 ← topExtremeOf (box_list.map Box.y1)
  let max_x2 ← rightExtremeOf (box_list.map Box.x2)
  let max_y2 ← bottomExtremeOf (box_list.map Box.y2)
  pure (max_x2.sub min_x1, max_y2.sub min_y1)

lemma pyPartition_eq_filter {α : Type} (p : α → Bool) (l : List α) :
    pyPartition p l = (l.filter p, l.filter (fun a => !p a)) := by
  induction l with
  | nil => rfl
  | cons a t ih =>
    rw [pyPartition, ih]
    by_cases hp : p a
    · simp [hp]
    · simp [Bool.of_not_eq_true hp]

/-- C4 (as amended): the left and top extremes prefer the width- and
height-independent components with fallback to the dependent ones, the right
and bottom extremes prefer the width- and height-DEPENDENT components with
fallback to the independent ones, and width/height are the corresponding
differences of extremes. -/
theorem extremes_spec :
    (∀ l : List LinearPolynomial,
      leftExtremeOf l
        = pyMinE (listOr (l.filter (fun p => !decide (p.containsSymbol wSym)))
            (l.filter (fun p => decide (p.containsSymbol wSym))))
      ∧ rightExtremeOf l
        = pyMaxE (listOr (l.filter (fun p => decide (p.containsSymbol wSym)))
            (l.filter (fun p => !decide (p.containsSymbol wSym))))
      ∧ topExtremeOf l
        = pyMinE (listOr (l.filter (fun p => !decide (p.containsSymbol hSym)))
            (l.filter (fun p => decide (p.containsSymbol hSym))))
      ∧ bottomExtremeOf l
        = pyMaxE (listOr (l.filter (fun p => decide (p.containsSymbol hSym)))
            (l.filter (fun p => !decide (p.containsSymbol hSym)))))
    ∧ (∀ (bl : List Box) (mnx mny mxx mxy : LinearPolynomial),
        leftExtremeOf (bl.map Box.x1) = .ok mnx →
        topExtremeOf (bl.map Box.y1) = .ok mny →
        rightExtremeOf (bl.map Box.x2) = .ok mxx →
        bottomExtremeOf (bl.map Box.y2) = .ok mxy →
        sizePolysOf bl = .ok (mxx.sub mnx, mxy.sub mny)) := by
  constructor
  · intro l
    have hW := pyPartition_eq_filter (fun p => !decide (p.containsSymbol wSym)) l
    have hH := pyPartition_eq_filter (fun p => !decide (p.containsSymbol hSym)) l
    have hW2 : l.filter (fun a => !!decide (a.containsSymbol wSym))
        = l.filter (fun a => decide (a.containsSymbol wSym)) := by
      apply List.filter_congr
      intro x _
      rw [Bool.not_not]
    have hH2 : l.filter (fun a => !!decide (a.containsSymbol hSym))
        = l.filter (fun a => decide (a.containsSymbol hSym)) := by
      apply List.filter_congr
      intro x _
      rw [Bool.not_not]
    refine ⟨?_, ?_, ?_, ?_⟩
    · rw [leftExtremeOf, hW, hW2]
    · rw [rightExtremeOf, hW, hW2]
    · rw [topExtremeOf, hH, hH2]
    · rw [bottomExtremeOf, hH, hH2]
  · intro bl mnx mny mxx mxy h1 h2 h3 h4
    rw [sizePolysOf, h1, h2, h3, h4]
    rfl

/-- The concrete `x2` list refuting C4's claimed fallback direction for the
right extreme: one width-independent component `x + 10` and one
width-dependent component `x + w`. -/
def cexX2s : List LinearPolynomial := [xSym.add (ofConst 10), xSym.add wSym]

/-- Modelled from the claim's words (not the code): the right extreme as the
maximum over the width-INDEPENDENT `x2` components, falling back to the
width-dependent ones only when the independent set is empty. -/
def rightExtremeClaimed (l : List LinearPolynomial) : Except Err LinearPolynomial :=
  pyMaxE (listOr (l.filter (fun p => !decide (p.containsSymbol wSym)))
    (l.filter (fun p => decide (p.containsSymbol wSym))))

/-- Counterexample to C4 as stated: on `[x+10, x+w]` the code's right
extreme is `x+w` (width-dependent preferred) while the claimed rule yields
`x+10`. -/
theorem right_extreme_counterexample :
    rightExtremeOf cexX2s ≠ rightExtremeClaimed cexX2s := by
  intro h
  have h1 : rightExtremeOf cexX2s = Except.ok (xSym.add wSym) := by
    with_unfolding_all rfl
  have h2 : rightExtremeClaimed cexX2s = Except.ok (xSym.add (ofConst 10)) := by
    with_unfolding_all rfl
  rw [h1, h2] at h
  have h3 : (xSym.add wSym).symbols = (xSym.add (ofConst 10)).symbols :=
    congrArg LinearPolynomial.symbols (Except.ok.inj h)
  have h4 : ¬(xSym.add wSym).symbols = (xSym.add (ofConst 10)).symbols := by
    with_unfolding_all decide
  exact h4 h3

/-- Witness for the width/height conjunct of the amended C4 at a concrete
box list. -/
theorem extremes_spec_witness :
    leftExtremeOf ([Box.of_size (ofConst 0) (ofConst 0) (ofConst 1) (ofConst 1)].map Box.x1)
      = Except.ok (ofConst 0)
    ∧ sizePolysOf [Box.of_size (ofConst 0) (ofConst 0) (ofConst 1) (ofConst 1)]
      = Except.ok
          (((ofConst 0).add (ofConst 1)).sub (ofConst 0),
            ((ofConst 0).add (ofConst 1)).sub (ofConst 0)) :=
  ⟨by with_unfolding_all rfl,
    extremes_spec.2 [Box.of_size (ofConst 0) (ofConst 0) (ofConst 1) (ofConst 1)]
      (ofConst 0) (ofConst 0) ((ofConst 0).add (ofConst 1))
      ((ofConst 0).add (ofConst 1))
      (by with_unfolding_all rfl) (by with_unfolding_all rfl)
      (by with_unfolding_all rfl) (by with_unfolding_all rfl)⟩

/-- Association-list lookup modelling a Python dict read (first matching
key; keys are unique by construction of `aupd`). -/
def alookup {β : Type} (l : List (Nat × β)) (k : Nat) : Option β :=
  (l.find? (fun e => decide (e.1 = k))).map (·.2)

/-- Dict read raising `KeyError` when absent. -/
def alookupE {β : Type} (l : List (Nat × β)) (k : Nat) : Except Err β :=
  match alookup l k with
  | some b => .ok b
  | none => .error .keyError

/-- Dict assignment: replace in place when present, append otherwise. -/
def aupd {β : Type} (l : List (Nat × β)) (k : Nat) (v : β) : List (Nat × β) :=
  if (l.find? (fun e => decide (e.1 = k))).isSome then
    l.map (fun e => if e.1 = k then (k, v) else e)
  else l ++ [(k, v)]

/-- The boxes dict of the orchestrator, in insertion order. -/
abbrev Boxes := List (Nat × Box)

/-- The bindings `x=0, y=0, w=width_c, h=height_c` used by every `eval` call
in `_infer_size` (container.py lines 242-245 and 252-253). -/
def bindXYWH (wc hc : ℚ) : String → Option ℚ := fun k =>
  if k = "x" then some 0
  else if k = "y" then some 0
  else if k = "w" then some wc
  else if k = "h" then some hc
  else none

/-- `poly.eval(x=0, y=0, w=width_c, h=height_c)`, raising on a missing
variable. -/
def evalE (p : LinearPolynomial) (wc hc : ℚ) : Except Err ℚ :=
  match p.eval (bindXYWH wc hc) with
  | some v => .ok v
  | none => .error .missingVariable

/-- The solved size dict `{x: x_offset, y: y_offset, w: width_c, h:
height_c}` returned by `_infer_size` (container.py lines 257-262). -/
structure SizeSol where
  xOff : ℚ
  yOff : ℚ
  wC : ℚ
  hC : ℚ
deriving Repr, DecidableEq

/-- The width/height-constant computation of `_infer_size` (container.py
lines 203-235): extremes, the `-1` sentinel for non-constant dimensions,
constraint tightening, and the negativity check. -/
def sizeCore (constraints : List (Nat × String × Nat)) (boxes : Boxes) :
    Except Err (ℚ × ℚ) := do
  let box_list := boxes.map (·.2)
  let wh ← sizePolysOf box_list
  let width_c : ℚ := if wh.1.isConst then wh.1.const else -1
  let height_c : ℚ := if wh.2.isConst then wh.2.const else -1
  let tightened ← constraints.foldlM
    (fun (acc : ℚ × ℚ) c => do
      let box_from ← alookupE boxes c.1
      let box_to ← alookupE boxes c.2.2
      let in_eq ← box_from.constrain box_to c.2.1
      pure (tightenOne acc.1 acc.2 in_eq))
    (width_c, height_c)
  if tightened.1 < 0 ∨ tightened.2 < 0 then .error .couldNotInferSize
  else pure tightened

/-- The strict-mode keep test (container.py lines 241-247): a box is kept
iff it lies entirely inside `[0, width] × [0, height]`. -/
def keepBox (wc hc : ℚ) (b : Box) : Except Err Bool := do
  let v1 ← evalE b.x1 wc hc
  let v2 ← evalE b.x2 wc hc
  let v3 ← evalE b.y1 wc hc
  let v4 ← evalE b.y2 wc hc
  pure (decide (0 ≤ v1) && decide (v2 ≤ wc) && decide (0 ≤ v3) && decide (v4 ≤ hc))

/-- The strict-mode pruning pass building `inside_box` (container.py lines
240-247), preserving insertion order. -/
def pruneE (wc hc : ℚ) : Boxes → Except Err Boxes
  | [] => pure []
  | e :: t => do
    let keep ← keepBox wc hc e.2
    let rest ← pruneE wc hc t
    pure (if keep then e :: rest else rest)

/-- The final offset computation of `_infer_size` (container.py lines
252-262): evaluate all coordinates, take minima, return the size dict. -/
def finalize (boxes : Boxes) (wc hc : ℚ) : Except Err SizeSol := do
  let box_list := boxes.map (·.2)
  let xs := box_list.map Box.x1 ++ box_list.map Box.x2
  let ys := box_list.map Box.y1 ++ box_list.map Box.y2
  let x_eval ← xs.mapM (fun p => evalE p wc hc)
  let y_eval ← ys.mapM (fun p => evalE p wc hc)
  match x_eval, y_eval with
  | vx :: tx, vy :: ty =>
    pure ⟨-(tx.foldl min vx), -(ty.foldl min vy), wc, hc⟩
  | _, _ => .error .minEmptySequence

/-- `_infer_size` (container.py lines 184-262) with explicit fuel bounding
the strict-mode re-solve recursion (container.py lines 237-250); `none`
means the fuel ran out, which `infer_size_terminates` shows cannot happen
with fuel exceeding the box count. -/
def inferSizeAux (strict : Bool) (constraints : List (Nat × String × Nat)) :
    Nat → Boxes → Option (Except Err SizeSol)
  | 0, _ => none
  | fuel + 1, boxes =>
    match sizeCore constraints boxes with
    | .error e => some (.error e)
    | .ok wh =>
      if strict then
        match pruneE wh.1 wh.2 boxes with
        | .error e => some (.error e)
        | .ok inside =>
          if inside.length < boxes.length then
            inferSizeAux strict constraints fuel inside
          else some (finalize boxes wh.1 wh.2)
      else some (finalize boxes wh.1 wh.2)

/-- `_infer_size` as called by the orchestrator: fuel `N + 1` for `N`
boxes. -/
def inferSizeE (strict : Bool) (constraints : List (Nat × String × Nat))
    (boxes : Boxes) : Except Err SizeSol :=
  (inferSizeAux strict constraints (boxes.length + 1) boxes).getD
    (.error .couldNotInferSize)

lemma pruneE_length_le (wc hc : ℚ) :
    ∀ (boxes inside : Boxes), pruneE wc hc boxes = .ok inside →
      inside.length ≤ boxes.length := by
  intro boxes
  induction boxes with
  | nil =>
    intro inside h
    cases h
    simp
  | cons e t ih =>
    intro inside h
    rw [pruneE] at h
    cases hkeep : keepBox wc hc e.2 with
    | error err => rw [hkeep] at h; cases h
    | ok keep =>
      rw [hkeep] at h
      cases hrest : pruneE wc hc t with
      | error err =>
        rw [hrest] at h
        cases h
      | ok rest =>
        rw [hrest] at h
        have hr := ih rest hrest
        cases h
        by_cases hk : keep = true <;> simp [hk] <;> omega

/-- C2: each strict-mode re-solve recurses only on a strictly smaller box
set (the pruned set is never larger, and the recursion is guarded by
`inside.length < boxes.length`), so `_infer_size` with fuel exceeding the
box count always terminates with a result (never exhausts its fuel). -/
theorem infer_size_terminates (strict : Bool)
    (constraints : List (Nat × String × Nat)) :
    (∀ (wc hc : ℚ) (boxes inside : Boxes),
      pruneE wc hc boxes = .ok inside → inside.length ≤ boxes.length)
    ∧ (∀ (fuel : Nat) (boxes : Boxes), boxes.length < fuel →
        (inferSizeAux strict constraints fuel boxes).isSome) := by
  refine ⟨fun wc hc => pruneE_length_le wc hc, ?_⟩
  intro fuel
  induction fuel with
  | zero =>
    intro boxes h
    omega
  | succ fuel ih =>
    intro boxes hlt
    rw [inferSizeAux]
    cases hcore : sizeCore constraints boxes with
    | error e => simp
    | ok wh =>
      by_cases hstrict : strict = true
      · subst hstrict
        simp only [if_true]
        cases hprune : pruneE wh.1 wh.2 boxes with
        | error e => simp
        | ok inside =>
          by_cases hsz : inside.length < boxes.length
          · show (if inside.length < boxes.length then
                inferSizeAux true constraints fuel inside
              else some (finalize boxes wh.1 wh.2)).isSome = true
            rw [if_pos hsz]
            exact ih inside (by omega)
          · show (if inside.length < boxes.length then
                inferSizeAux true constraints fuel inside
              else some (finalize boxes wh.1 wh.2)).isSome = true
            rw [if_neg hsz]
            simp
      · rw [Bool.not_eq_true] at hstrict
        subst hstrict
        simp

/-- Witness for C2 at the empty box set and fuel 1. -/
theorem infer_size_terminates_witness :
    pruneE 1 1 [] = Except.ok []
    ∧ ([] : Boxes).length ≤ ([] : Boxes).length
    ∧ ([] : Boxes).length < 1
    ∧ (inferSizeAux false [] 1 []).isSome :=
  ⟨rfl, (infer_size_terminates false []).1 1 1 [] [] rfl,
    by decide, (infer_size_terminates false []).2 1 [] (by decide)⟩

/-- The `undef` sentinel polynomial (container.py line 160). -/
def undefSym : LinearPolynomial := single "undef" 1

/-- The container's own symbolic box `Box.of_size(x, y, w, h)`
(container.py line 162). -/
def containerBox : Box := Box.of_size xSym ySym wSym hSym

/-- The initial placeholder box of a child (container.py lines 168-169):
the already-stored box if present, else undefined position with the child's
intrinsic size. -/
def initialBox (intrW intrH : Nat → ℚ) (boxes : Boxes) (obj : Nat) : Box :=
  (alookup boxes obj).getD
    (Box.of_size undefSym undefSym (ofConst (intrW obj)) (ofConst (intrH obj)))

/-- The relation-folding loop of `_setup_boxes` (container.py lines
170-172): fold `relative_to(boxes[pred], relative)` over every predecessor
and every edge label. -/
def foldRelations (g : DependencyGraph Nat String) (boxes : Boxes) (obj : Nat)
    (b0 : Box) : Except Err Box :=
  (g.pred obj).foldlM
    (fun bx p =>
      (g.labels p obj).foldlM
        (fun bx2 rel => do
          let pb ← alookupE boxes p
          bx2.relative_to pb rel)
        bx)
    b0

/-- The main loop of `_setup_boxes` (container.py lines 163-178): process
each node of the topological order, skipping the container itself, failing
with `UnresolvedPosition` when a folded box still has the undefined sentinel
as its x1 or y1, and otherwise storing the box with its offset applied. -/
def setupGo (g : DependencyGraph Nat String) (selfId : Nat)
    (intrW intrH : Nat → ℚ) (offs : Nat → ℚ × ℚ) :
    List Nat → Boxes → Except Err Boxes
  | [], boxes => .ok boxes
  | obj :: rest, boxes =>
    if obj = selfId then setupGo g selfId intrW intrH offs rest boxes
    else do
      let bx ← foldRelations g boxes obj (initialBox intrW intrH boxes obj)
      if bx.x1.pythonEq undefSym ∨ bx.y1.pythonEq undefSym then
        .error (.unresolvedPosition obj)
      else
        setupGo g selfId intrW intrH offs rest
          (aupd boxes obj (bx.offset (offs obj).1 (offs obj).2))

/-- `_setup_boxes` (container.py lines 148-182): seed the boxes dict with
the container's own box, process all nodes in topological order, and delete
the temporary container entry. -/
def setupBoxes (g : DependencyGraph Nat String) (selfId : Nat)
    (intrW intrH : Nat → ℚ) (offs : Nat → ℚ × ℚ) : Except Err Boxes := do
  let order ← g.topological_sort
  let boxes ← setupGo g selfId intrW intrH offs order [(selfId, containerBox)]
  pure (boxes.filter (fun e => decide (e.1 ≠ selfId)))

/-- C6: whenever the box of a (non-container) child, after folding all
relation transforms from its predecessors, still has the undefined sentinel
as its x1 or y1 component, box setup fails with `UnresolvedPosition` naming
that child — for every offset table, i.e. before any offset is applied. -/
theorem setup_unresolved_spec (g : DependencyGraph Nat String) (selfId : Nat)
    (intrW intrH : Nat → ℚ) (offs : Nat → ℚ × ℚ) (obj : Nat)
    (rest : List Nat) (boxes : Boxes) (bx : Box)
    (hobj : obj ≠ selfId)
    (hfold : foldRelations g boxes obj (initialBox intrW intrH boxes obj)
      = .ok bx)
    (hundef : bx.x1.pythonEq undefSym ∨ bx.y1.pythonEq undefSym) :
    setupGo g selfId intrW intrH offs (obj :: rest) boxes
      = .error (.unresolvedPosition obj) := by
  rw [setupGo, if_neg hobj, hfold]
  show (if bx.x1.pythonEq undefSym ∨ bx.y1.pythonEq undefSym then
      Except.error (Err.unresolvedPosition obj)
    else setupGo g selfId intrW intrH offs rest
      (aupd boxes obj (bx.offset (offs obj).1 (offs obj).2))) = _
  rw [if_pos hundef]

/-- The two-node graph (container node `0`, child node `1` registered with
no relations at all) used as the C6 witness. -/
def gC6 : DependencyGraph Nat String :=
  (DependencyGraph.empty.add_node 0).add_node 1

/-- Intrinsic sizes for the C6 witness. -/
def intrTen : Nat → ℚ := fun _ => 10

/-- All-zero offsets. -/
def offs0 : Nat → ℚ × ℚ := fun _ => (0, 0)

/-- The seeded boxes dict for the C6 witness. -/
def boxesC6 : Boxes := [(0, containerBox)]

/-- Witness for C6: a child with no relation folds to its placeholder box,
whose x1 is the undefined sentinel, and setup fails naming it. -/
theorem setup_unresolved_spec_witness :
    (1 : Nat) ≠ 0
    ∧ foldRelations gC6 boxesC6 1 (initialBox intrTen intrTen boxesC6 1)
      = Except.ok (initialBox intrTen intrTen boxesC6 1)
    ∧ ((initialBox intrTen intrTen boxesC6 1).x1.pythonEq undefSym
        ∨ (initialBox intrTen intrTen boxesC6 1).y1.pythonEq undefSym)
    ∧ setupGo gC6 0 intrTen intrTen offs0 [1] boxesC6
      = Except.error (Err.unresolvedPosition 1) :=
  ⟨by decide, by with_unfolding_all rfl,
    Or.inl (by with_unfolding_all decide),
    setup_unresolved_spec gC6 0 intrTen intrTen offs0 1 [] boxesC6
      (initialBox intrTen intrTen boxesC6 1) (by decide)
      (by with_unfolding_all rfl)
      (Or.inl (by with_unfolding_all decide))⟩

/-- Python `round` (banker's rounding, ties to even), as used on the final
width/height (container.py line 146). -/
def pyRound (q : ℚ) : Int :=
  let f := ⌊q⌋
  let r := q - f
  if r < 1/2 then f
  else if 1/2 < r then f + 1
  else if f % 2 = 0 then f else f + 1

/-- Embedding of the `RelativeContainer` state (container.py lines 69-81):
the container itself is node `0`; children are positive node ids whose
intrinsic sizes are supplied externally. -/
structure RCont where
  strict : Bool
  children : List Nat
  offsets : List (Nat × (ℚ × ℚ))
  graph : DependencyGraph Nat String
  constraints : List (Nat × String × Nat)

namespace RCont

/-- `RelativeContainer(strict=...)` (container.py lines 69-81): the graph
starts with the container node. -/
def new (strict : Bool) : RCont :=
  ⟨strict, [], [], DependencyGraph.empty.add_node 0, []⟩

/-- `add_child` (container.py lines 83-103): duplicate check, graph edges
from each relation target to the child in keyword order, and the offset
entry. -/
def add_child (c : RCont) (child : Nat) (offset : ℚ × ℚ)
    (rels : List (String × Nat)) : Except Err RCont :=
  if child ∈ c.children then .error .duplicateChild
  else .ok
    { c with
      children := c.children ++ [child]
      graph := rels.foldl (fun g r => g.add_edge r.2 child r.1) c.graph
      offsets := aupd c.offsets child offset }

/-- `add_constraint` (container.py lines 105-119). -/
def add_constraint (c : RCont) (obj : Nat) (rels : List (String × Nat)) : RCont :=
  { c with constraints := c.constraints ++ rels.map (fun r => (obj, r.1, r.2)) }

/-- `infer_size` (container.py lines 137-146): set up boxes, solve, and
round the width/height. -/
def infer_size (c : RCont) (intrW intrH : Nat → ℚ) : Except Err (Int × Int) := do
  let boxes ← setupBoxes c.graph 0 intrW intrH
    (fun n => (alookup c.offsets n).getD (0, 0))
  let sol ← inferSizeE c.strict c.constraints boxes
  pure (pyRound sol.wC, pyRound sol.hC)

end RCont

/-- The C3 scenario exactly as claimed: child `1` (A, 10×10) with
`align_left=container, align_top=container`; child `2` (B, 20×20) with the
single relation `right=A`. -/
def contC3 : Except Err RCont :=
  (RCont.new false).add_child 1 (0, 0) [("align_left", 0), ("align_top", 0)]
    |>.bind (fun c => c.add_child 2 (0, 0) [("right", 1)])

/-- The C3 scenario with child B additionally given `align_top=A`. -/
def contC3amended : Except Err RCont :=
  (RCont.new false).add_child 1 (0, 0) [("align_left", 0), ("align_top", 0)]
    |>.bind (fun c => c.add_child 2 (0, 0) [("right", 1), ("align_top", 1)])

/-- Intrinsic widths for C3: A is 10×10, B is 20×20. -/
def intrC3 : Nat → ℚ := fun n => if n = 1 then 10 else 20

/-- Counterexample to C3 as stated: with only `right=A`, B's y1 keeps the
undefined sentinel, so `infer_size` raises `UnresolvedPosition(B)` instead
of returning `(30, 20)`. -/
theorem infer_size_c3_counterexample :
    contC3.bind (fun c => c.infer_size intrC3 intrC3)
      = Except.error (Err.unresolvedPosition 2)
    ∧ contC3.bind (fun c => c.infer_size intrC3 intrC3) ≠ Except.ok (30, 20) := by
  have h : contC3.bind (fun c => c.infer_size intrC3 intrC3)
      = Except.error (Err.unresolvedPosition 2) := by
    with_unfolding_all rfl
  refine ⟨h, ?_⟩
  intro hc
  rw [h] at hc
  exact Except.noConfusion hc

/-- C3 (as amended): with child B related by `right=A` and `align_top=A`,
`infer_size()` returns `(30, 20)`. -/
theorem infer_size_c3_amended :
    contC3amended.bind (fun c => c.infer_size intrC3 intrC3)
      = Except.ok ((30 : Int), (20 : Int)) := by
  with_unfolding_all rfl
